import Mathlib

/-!
Verification of the lark type-inference core against its specification.

This file shallowly embeds:

* the permission kind-inference fixpoint engine of
  `components/lark-type-check/src/full_inference/analysis/kind_inference.rs`
  (function `inference`), and
* the result-recording API of `components/type-check/src/lib.rs`
  (`TypeCheckResults::record_ty` and `TypeCheckResults::ty`).

Interned `Perm` values are identified with their underlying `PermData`
(interning gives stable keys for structurally-equal data, so `intern` is
injective and `untern ∘ intern = id`; we work with the unferned data
directly).  Datafrog relations are embedded as `Finset`s — datafrog's
`Relation` is a sorted, deduplicated set of tuples — and the semi-naive
datafrog iteration is embedded as a naive round-based iteration of the
same three rules to a fixpoint, which computes the same least fixpoint.
-/

namespace Lark

/-- `lark_ty::PermKind`: the three permission classifications. -/
inductive PermKind where
  | Own
  | Borrow
  | Share
deriving DecidableEq, Repr

/-- `PermVar`: index of a permission inference variable.
Modelled from the spec: `full_inference/perm.rs` is not among the
excerpted sources; per the spec a `PermVar` is an opaque index. -/
abbrev PermVar := Nat

/-- Index of a placeholder (rigid generic parameter stand-in).
Modelled from the spec: an opaque, interned index. -/
abbrev PlaceholderIdx := Nat

/-- `hir` analysis `Node`: an opaque source location tag carried by facts;
the kind-inference rules project it away. -/
abbrev Node := Nat

/-- `PermData`: a permission is `Known` (a concrete classification),
`Inferred` (a permission variable awaiting classification) or
`Placeholder` (rigid).  Modelled from the spec (`perm.rs` is not
excerpted); the three-variant shape is also visible in the `match` in
`kind_inference.rs` lines 80–82. -/
inductive PermData where
  | Known (k : PermKind)
  | Inferred (v : PermVar)
  | Placeholder (p : PlaceholderIdx)
deriving DecidableEq, Repr

/-- Interned `Perm` values are identified with their `PermData`. -/
abbrev Perm := PermData

/-- The state of the three datafrog variables grown by the loop in
`inference` (`kind_inference.rs` lines 57–68): `perm_less`, `borrow`,
`owned`.  (`perm_condition` never grows: no rule feeds it.) -/
structure AnalysisState where
  less : Finset (Perm × Perm)
  borrow : Finset Perm
  owned : Finset Perm
deriving DecidableEq

/-- One round of the loop body of `inference` (lines 57–68): each rule
joins against the relations as visible at the start of the round.
  perm_less(Pa, Pb) :- perm_condition(Pc, Pa, Pb), borrow(Pc).
  borrow(Pb) :- perm_less(Pa, Pb), borrow(Pa).
  owned(Pb) :- perm_less(Pa, Pb), owned(Pa). -/
def step (cond : Finset (Perm × Perm × Perm)) (s : AnalysisState) : AnalysisState where
  less := s.less ∪ (cond.filter (fun t => t.1 ∈ s.borrow)).image (fun t => (t.2.1, t.2.2))
  borrow := s.borrow ∪ (s.less.filter (fun e => e.1 ∈ s.borrow)).image (fun e => e.2)
  owned := s.owned ∪ (s.less.filter (fun e => e.1 ∈ s.owned)).image (fun e => e.2)

/-- The seeds (lines 28–55): `perm_less` from `perm_less_base`;
`borrow` holds the interned `PermKind::Borrow` and `PermKind::Own`;
`owned` holds the interned `PermKind::Own`. -/
def initState (be : Finset (Perm × Perm)) : AnalysisState where
  less := be
  borrow := {PermData.Known .Borrow, PermData.Known .Own}
  owned := {PermData.Known .Own}

/-- Every permission that can ever appear in any of the three grown
relations: the components of the base and conditional facts plus the two
interned constants. -/
def permUniverse (be : Finset (Perm × Perm)) (ce : Finset (Perm × Perm × Perm)) :
    Finset Perm :=
  insert (PermData.Known .Borrow) (insert (PermData.Known .Own)
    (be.image Prod.fst ∪ be.image Prod.snd ∪ ce.image (fun t => t.1) ∪
      ce.image (fun t => t.2.1) ∪ ce.image (fun t => t.2.2)))

/-- An upper bound on rounds after which the loop can no longer grow:
each non-final round grows the total size, which is bounded by
`|U|² + |U| + |U|`. -/
def fuelOf (be : Finset (Perm × Perm)) (ce : Finset (Perm × Perm × Perm)) : Nat :=
  (permUniverse be ce).card * (permUniverse be ce).card +
    (permUniverse be ce).card + (permUniverse be ce).card + 1

/-- The relations at the end of the `while iteration.changed()` loop:
the iteration run for enough rounds to have reached its fixpoint. -/
def analysisFixOf (be : Finset (Perm × Perm)) (ce : Finset (Perm × Perm × Perm)) :
    AnalysisState :=
  (step ce)^[fuelOf be ce] (initState be)

/-- The map-building operation of `FxIndexMap::extend` for one entry:
insert key `v` with value `k0`, overwriting any previous value. -/
def updOp (k0 : PermKind) : PermVar → (PermVar → Option PermKind) →
    (PermVar → Option PermKind) :=
  fun v acc w => if w = v then some k0 else acc w

instance updOp_leftComm (k0 : PermKind) : LeftCommutative (updOp k0) := by
  constructor
  intro a b m
  funext w
  by_cases h1 : w = a <;> by_cases h2 : w = b <;> simp [updOp, h1, h2]

/-- Extend the map with every variable of `vs` bound to `k0`
(`set.extend(...)` in lines 76–96; all entries of one pass carry the
same kind, so the iteration order is immaterial). -/
def extendConst (k0 : PermKind) (vs : Multiset PermVar)
    (m : PermVar → Option PermKind) : PermVar → Option PermKind :=
  Multiset.foldr (updOp k0) m vs

/-- The inferred variables among the elements of a relation: the
`filter_map` of lines 80–83 / 92–95 keeps `PermData::Inferred` and drops
`Known` and `Placeholder`. -/
def inferredVars (s : Finset Perm) : Multiset PermVar :=
  s.val.filterMap (fun p => match p with
    | .Inferred v => some v
    | .Known _ => none
    | .Placeholder _ => none)

/-- The returned classification map (lines 73–98): first every inferred
variable of `borrow` is inserted with `PermKind::Borrow`, then every
inferred variable of `owned` is inserted with `PermKind::Own`,
overwriting.  The `FxIndexMap` is modelled by its key→value function. -/
def classifyState (s : AnalysisState) : PermVar → Option PermKind :=
  extendConst .Own (inferredVars s.owned)
    (extendConst .Borrow (inferredVars s.borrow) (fun _ => none))

/-- Projection of `perm_less_base` facts `(Pa, Pb, Node)` to edges
`(Pa, Pb)` (line 30), deduplicated into a datafrog `Relation`. -/
def baseEdges (pl : List (Perm × Perm × Node)) : Finset (Perm × Perm) :=
  (pl.map (fun t => (t.1, t.2.1))).toFinset

/-- Projection of `perm_less_if_base` facts `(Pc, Pa, Pb, Node)` to
triples `(Pc, Pa, Pb)` (line 37), deduplicated. -/
def condEdges (pc : List (Perm × Perm × Perm × Node)) :
    Finset (Perm × Perm × Perm) :=
  (pc.map (fun t => (t.1, t.2.1, t.2.2.1))).toFinset

/-- The fixpoint state computed by `inference` on the given fact lists. -/
def analysisFix (pl : List (Perm × Perm × Node))
    (pc : List (Perm × Perm × Perm × Node)) : AnalysisState :=
  analysisFixOf (baseEdges pl) (condEdges pc)

/-- `inference` (lines 19–98): the classification map computed from the
two fact lists, as a key→value function. -/
def inferenceMap (pl : List (Perm × Perm × Node))
    (pc : List (Perm × Perm × Perm × Node)) : PermVar → Option PermKind :=
  classifyState (analysisFix pl pc)

/-! ### Growth, bounds and termination of the fixpoint loop -/

/-- Componentwise inclusion of analysis states: datafrog variables only
ever accumulate tuples. -/
def stateLE (s t : AnalysisState) : Prop :=
  s.less ⊆ t.less ∧ s.borrow ⊆ t.borrow ∧ s.owned ⊆ t.owned

lemma stateLE_refl (s : AnalysisState) : stateLE s s :=
  ⟨Finset.Subset.refl _, Finset.Subset.refl _, Finset.Subset.refl _⟩

lemma stateLE_trans {s t u : AnalysisState} (h1 : stateLE s t) (h2 : stateLE t u) :
    stateLE s u :=
  ⟨h1.1.trans h2.1, h1.2.1.trans h2.2.1, h1.2.2.trans h2.2.2⟩

lemma step_infl (ce : Finset (Perm × Perm × Perm)) (s : AnalysisState) :
    stateLE s (step ce s) :=
  ⟨Finset.subset_union_left, Finset.subset_union_left, Finset.subset_union_left⟩

lemma stateLE_iterate (ce : Finset (Perm × Perm × Perm)) (s : AnalysisState) (n : Nat) :
    stateLE s ((step ce)^[n] s) := by
  induction n with
  | zero => exact stateLE_refl s
  | succ n ih =>
    rw [Function.iterate_succ_apply']
    exact stateLE_trans ih (step_infl ce _)

/-- Total number of tuples across the three grown relations. -/
def stSize (s : AnalysisState) : Nat := s.less.card + s.borrow.card + s.owned.card

lemma stSize_lt_of_ne {s t : AnalysisState} (h : stateLE s t) (hne : s ≠ t) :
    stSize s < stSize t := by
  obtain ⟨l1, b1, o1⟩ := s
  obtain ⟨l2, b2, o2⟩ := t
  obtain ⟨hl, hb, ho⟩ := h
  simp only at hl hb ho
  have h1 := Finset.card_le_card hl
  have h2 := Finset.card_le_card hb
  have h3 := Finset.card_le_card ho
  simp only [stSize]
  by_cases hll : l1 = l2
  · by_cases hbb : b1 = b2
    · have hoo : o1 ≠ o2 := fun hoo => hne (by rw [hll, hbb, hoo])
      have : o1.card < o2.card :=
        Finset.card_lt_card ⟨ho, fun hs => hoo (Finset.Subset.antisymm ho hs)⟩
      omega
    · have : b1.card < b2.card :=
        Finset.card_lt_card ⟨hb, fun hs => hbb (Finset.Subset.antisymm hb hs)⟩
      omega
  · have : l1.card < l2.card :=
      Finset.card_lt_card ⟨hl, fun hs => hll (Finset.Subset.antisymm hl hs)⟩
    omega

/-- All permissions of a state lie in the universe `U`. -/
def InUniv (U : Finset Perm) (s : AnalysisState) : Prop :=
  (∀ a b : Perm, (a, b) ∈ s.less → a ∈ U ∧ b ∈ U) ∧ s.borrow ⊆ U ∧ s.owned ⊆ U

lemma known_borrow_mem_permUniverse (be : Finset (Perm × Perm))
    (ce : Finset (Perm × Perm × Perm)) :
    PermData.Known .Borrow ∈ permUniverse be ce := by
  simp [permUniverse]

lemma known_own_mem_permUniverse (be : Finset (Perm × Perm))
    (ce : Finset (Perm × Perm × Perm)) :
    PermData.Known .Own ∈ permUniverse be ce := by
  simp [permUniverse]

lemma base_mem_permUniverse {be : Finset (Perm × Perm)}
    {ce : Finset (Perm × Perm × Perm)} {a b : Perm} (h : (a, b) ∈ be) :
    a ∈ permUniverse be ce ∧ b ∈ permUniverse be ce := by
  constructor
  · exact Finset.mem_insert_of_mem (Finset.mem_insert_of_mem
      (Finset.mem_union_left _ (Finset.mem_union_left _ (Finset.mem_union_left _
        (Finset.mem_union_left _ (Finset.mem_image_of_mem Prod.fst h))))))
  · exact Finset.mem_insert_of_mem (Finset.mem_insert_of_mem
      (Finset.mem_union_left _ (Finset.mem_union_left _ (Finset.mem_union_left _
        (Finset.mem_union_right _ (Finset.mem_image_of_mem Prod.snd h))))))

lemma cond_mem_permUniverse {be : Finset (Perm × Perm)}
    {ce : Finset (Perm × Perm × Perm)} {c a b : Perm} (h : (c, a, b) ∈ ce) :
    c ∈ permUniverse be ce ∧ a ∈ permUniverse be ce ∧ b ∈ permUniverse be ce := by
  refine ⟨?_, ?_, ?_⟩
  · exact Finset.mem_insert_of_mem (Finset.mem_insert_of_mem
      (Finset.mem_union_left _ (Finset.mem_union_left _ (Finset.mem_union_right _
        (Finset.mem_image_of_mem (fun t => t.1) h)))))
  · exact Finset.mem_insert_of_mem (Finset.mem_insert_of_mem
      (Finset.mem_union_left _ (Finset.mem_union_right _
        (Finset.mem_image_of_mem (fun t => t.2.1) h))))
  · exact Finset.mem_insert_of_mem (Finset.mem_insert_of_mem
      (Finset.mem_union_right _ (Finset.mem_image_of_mem (fun t => t.2.2) h)))

lemma initState_inUniv (be : Finset (Perm × Perm)) (ce : Finset (Perm × Perm × Perm)) :
    InUniv (permUniverse be ce) (initState be) := by
  refine ⟨fun a b h => base_mem_permUniverse h, ?_, ?_⟩
  · intro p hp
    simp only [initState, Finset.mem_insert, Finset.mem_singleton] at hp
    rcases hp with rfl | rfl
    · exact known_borrow_mem_permUniverse be ce
    · exact known_own_mem_permUniverse be ce
  · intro p hp
    simp only [initState, Finset.mem_singleton] at hp
    subst hp
    exact known_own_mem_permUniverse be ce

lemma step_inUniv {be : Finset (Perm × Perm)} {ce : Finset (Perm × Perm × Perm)}
    {s : AnalysisState} (h : InUniv (permUniverse be ce) s) :
    InUniv (permUniverse be ce) (step ce s) := by
  obtain ⟨hl, hb, ho⟩ := h
  refine ⟨?_, ?_, ?_⟩
  · intro a b hab
    simp only [step, Finset.mem_union, Finset.mem_image, Finset.mem_filter] at hab
    rcases hab with hab | ⟨⟨c, x, y⟩, ⟨hce, hcb⟩, heq⟩
    · exact hl a b hab
    · simp only [Prod.mk.injEq] at heq
      obtain ⟨rfl, rfl⟩ := heq
      exact ⟨(cond_mem_permUniverse hce).2.1, (cond_mem_permUniverse hce).2.2⟩
  · intro p hp
    simp only [step, Finset.mem_union, Finset.mem_image, Finset.mem_filter] at hp
    rcases hp with hp | ⟨⟨x, y⟩, ⟨hless, hxb⟩, heq⟩
    · exact hb hp
    · cases heq
      exact (hl x y hless).2
  · intro p hp
    simp only [step, Finset.mem_union, Finset.mem_image, Finset.mem_filter] at hp
    rcases hp with hp | ⟨⟨x, y⟩, ⟨hless, hxo⟩, heq⟩
    · exact ho hp
    · cases heq
      exact (hl x y hless).2

lemma iterate_inUniv (be : Finset (Perm × Perm)) (ce : Finset (Perm × Perm × Perm))
    (n : Nat) : InUniv (permUniverse be ce) ((step ce)^[n] (initState be)) := by
  induction n with
  | zero => exact initState_inUniv be ce
  | succ n ih =>
    rw [Function.iterate_succ_apply']
    exact step_inUniv ih

lemma stSize_le_of_inUniv {U : Finset Perm} {s : AnalysisState} (h : InUniv U s) :
    stSize s ≤ U.card * U.card + U.card + U.card := by
  have h1 : s.less ⊆ U ×ˢ U := by
    intro x hx
    obtain ⟨a, b⟩ := x
    exact Finset.mem_product.mpr (h.1 a b hx)
  have hprod := Finset.card_le_card h1
  rw [Finset.card_product] at hprod
  have h2 := Finset.card_le_card h.2.1
  have h3 := Finset.card_le_card h.2.2
  simp only [stSize]
  omega

lemma iterate_fixed_or_size (ce : Finset (Perm × Perm × Perm)) (s : AnalysisState)
    (n : Nat) :
    step ce ((step ce)^[n] s) = (step ce)^[n] s ∨
      n + stSize s ≤ stSize ((step ce)^[n] s) := by
  induction n with
  | zero => right; simp
  | succ n ih =>
    by_cases hf : step ce ((step ce)^[n] s) = (step ce)^[n] s
    · left
      rw [Function.iterate_succ_apply', hf]
      exact hf
    · right
      have hlt : stSize ((step ce)^[n] s) < stSize (step ce ((step ce)^[n] s)) :=
        stSize_lt_of_ne (step_infl ce _) (fun h => hf h.symm)
      rw [Function.iterate_succ_apply']
      rcases ih with ih | ih
      · exact absurd ih hf
      · omega

/-- After `fuelOf` rounds the loop has reached its fixpoint: one more
round changes nothing (the `while iteration.changed()` exit condition). -/
lemma analysisFixOf_fixed (be : Finset (Perm × Perm)) (ce : Finset (Perm × Perm × Perm)) :
    step ce (analysisFixOf be ce) = analysisFixOf be ce := by
  rcases iterate_fixed_or_size ce (initState be) (fuelOf be ce) with h | h
  · exact h
  · exfalso
    have hb := stSize_le_of_inUniv (iterate_inUniv be ce (fuelOf be ce))
    have hf : fuelOf be ce = (permUniverse be ce).card * (permUniverse be ce).card +
        (permUniverse be ce).card + (permUniverse be ce).card + 1 := rfl
    rw [hf] at h hb
    generalize hU : (permUniverse be ce).card * (permUniverse be ce).card +
        (permUniverse be ce).card + (permUniverse be ce).card = B at hb h
    omega

lemma step_iterate_fixed {ce : Finset (Perm × Perm × Perm)} {s : AnalysisState}
    (h : step ce s = s) (n : Nat) : (step ce)^[n] s = s := by
  induction n with
  | zero => rfl
  | succ n ih => rw [Function.iterate_succ_apply', ih, h]

/-! ### The spec's rules as an inductive (least-fixpoint) derivation system -/

/-- A fact of one of the three relations grown by the engine. -/
inductive Fact where
  | less (a b : Perm)
  | isBorrow (p : Perm)
  | isOwned (p : Perm)

/-- The least fixpoint of the rules as the spec states them: `perm_less`
seeded from the unconditional facts, `borrow` seeded with the constants
`Borrow` and `Own`, `owned` seeded with `Own`; a conditional edge is
activated when its guard is in `borrow`; `borrow` and `owned` propagate
along `perm_less` edges.  Being an inductive predicate, this is exactly
the least relation closed under those rules. -/
inductive Derives (be : Finset (Perm × Perm)) (ce : Finset (Perm × Perm × Perm)) :
    Fact → Prop where
  | base_edge {a b : Perm} : (a, b) ∈ be → Derives be ce (.less a b)
  | cond_edge {c a b : Perm} : (c, a, b) ∈ ce → Derives be ce (.isBorrow c) →
      Derives be ce (.less a b)
  | seed_borrow : Derives be ce (.isBorrow (.Known .Borrow))
  | seed_borrow_own : Derives be ce (.isBorrow (.Known .Own))
  | seed_owned : Derives be ce (.isOwned (.Known .Own))
  | prop_borrow {a b : Perm} : Derives be ce (.less a b) →
      Derives be ce (.isBorrow a) → Derives be ce (.isBorrow b)
  | prop_owned {a b : Perm} : Derives be ce (.less a b) →
      Derives be ce (.isOwned a) → Derives be ce (.isOwned b)

/-- A fact holds in an analysis state. -/
def Holds (s : AnalysisState) : Fact → Prop
  | .less a b => (a, b) ∈ s.less
  | .isBorrow p => p ∈ s.borrow
  | .isOwned p => p ∈ s.owned

/-- Everything in the state is derivable by the rules. -/
def SoundState (be : Finset (Perm × Perm)) (ce : Finset (Perm × Perm × Perm))
    (s : AnalysisState) : Prop :=
  (∀ a b : Perm, (a, b) ∈ s.less → Derives be ce (.less a b)) ∧
  (∀ p : Perm, p ∈ s.borrow → Derives be ce (.isBorrow p)) ∧
  (∀ p : Perm, p ∈ s.owned → Derives be ce (.isOwned p))

lemma initState_sound (be : Finset (Perm × Perm)) (ce : Finset (Perm × Perm × Perm)) :
    SoundState be ce (initState be) := by
  refine ⟨fun a b h => Derives.base_edge h, ?_, ?_⟩
  · intro p hp
    simp only [initState, Finset.mem_insert, Finset.mem_singleton] at hp
    rcases hp with rfl | rfl
    · exact Derives.seed_borrow
    · exact Derives.seed_borrow_own
  · intro p hp
    simp only [initState, Finset.mem_singleton] at hp
    subst hp
    exact Derives.seed_owned

lemma step_sound {be : Finset (Perm × Perm)} {ce : Finset (Perm × Perm × Perm)}
    {s : AnalysisState} (h : SoundState be ce s) : SoundState be ce (step ce s) := by
  obtain ⟨hl, hb, ho⟩ := h
  refine ⟨?_, ?_, ?_⟩
  · intro a b hab
    simp only [step, Finset.mem_union, Finset.mem_image, Finset.mem_filter] at hab
    rcases hab with hab | ⟨⟨c, x, y⟩, ⟨hce, hcb⟩, heq⟩
    · exact hl a b hab
    · simp only [Prod.mk.injEq] at heq
      obtain ⟨rfl, rfl⟩ := heq
      exact Derives.cond_edge hce (hb c hcb)
  · intro p hp
    simp only [step, Finset.mem_union, Finset.mem_image, Finset.mem_filter] at hp
    rcases hp with hp | ⟨⟨x, y⟩, ⟨hless, hxb⟩, heq⟩
    · exact hb p hp
    · cases heq
      exact Derives.prop_borrow (hl x y hless) (hb x hxb)
  · intro p hp
    simp only [step, Finset.mem_union, Finset.mem_image, Finset.mem_filter] at hp
    rcases hp with hp | ⟨⟨x, y⟩, ⟨hless, hxo⟩, heq⟩
    · exact ho p hp
    · cases heq
      exact Derives.prop_owned (hl x y hless) (ho x hxo)

lemma analysisFixOf_sound (be : Finset (Perm × Perm)) (ce : Finset (Perm × Perm × Perm)) :
    SoundState be ce (analysisFixOf be ce) := by
  unfold analysisFixOf
  generalize fuelOf be ce = n
  induction n with
  | zero => exact initState_sound be ce
  | succ n ih =>
    rw [Function.iterate_succ_apply']
    exact step_sound ih

/-- The base facts survive into the fixpoint. -/
lemma fix_base_subset {be : Finset (Perm × Perm)} {ce : Finset (Perm × Perm × Perm)}
    {a b : Perm} (h : (a, b) ∈ be) : (a, b) ∈ (analysisFixOf be ce).less :=
  (stateLE_iterate ce (initState be) (fuelOf be ce)).1 h

lemma fix_seed_borrow {be : Finset (Perm × Perm)} {ce : Finset (Perm × Perm × Perm)} :
    PermData.Known .Borrow ∈ (analysisFixOf be ce).borrow :=
  (stateLE_iterate ce (initState be) (fuelOf be ce)).2.1
    (by simp [initState])

lemma fix_seed_borrow_own {be : Finset (Perm × Perm)} {ce : Finset (Perm × Perm × Perm)} :
    PermData.Known .Own ∈ (analysisFixOf be ce).borrow :=
  (stateLE_iterate ce (initState be) (fuelOf be ce)).2.1
    (by simp [initState])

lemma fix_seed_owned {be : Finset (Perm × Perm)} {ce : Finset (Perm × Perm × Perm)} :
    PermData.Known .Own ∈ (analysisFixOf be ce).owned :=
  (stateLE_iterate ce (initState be) (fuelOf be ce)).2.2
    (by simp [initState])

/-- The fixpoint is closed under conditional-edge activation. -/
lemma fix_closed_cond {be : Finset (Perm × Perm)} {ce : Finset (Perm × Perm × Perm)}
    {c a b : Perm} (hc : (c, a, b) ∈ ce) (hcb : c ∈ (analysisFixOf be ce).borrow) :
    (a, b) ∈ (analysisFixOf be ce).less := by
  rw [← analysisFixOf_fixed be ce]
  refine Finset.mem_union_right _ (Finset.mem_image.mpr ⟨(c, a, b), ?_, rfl⟩)
  exact Finset.mem_filter.mpr ⟨hc, hcb⟩

/-- The fixpoint is closed under borrow propagation. -/
lemma fix_closed_borrow {be : Finset (Perm × Perm)} {ce : Finset (Perm × Perm × Perm)}
    {a b : Perm} (h1 : (a, b) ∈ (analysisFixOf be ce).less)
    (h2 : a ∈ (analysisFixOf be ce).borrow) : b ∈ (analysisFixOf be ce).borrow := by
  rw [← analysisFixOf_fixed be ce]
  refine Finset.mem_union_right _ (Finset.mem_image.mpr ⟨(a, b), ?_, rfl⟩)
  exact Finset.mem_filter.mpr ⟨h1, h2⟩

/-- The fixpoint is closed under owned propagation. -/
lemma fix_closed_owned {be : Finset (Perm × Perm)} {ce : Finset (Perm × Perm × Perm)}
    {a b : Perm} (h1 : (a, b) ∈ (analysisFixOf be ce).less)
    (h2 : a ∈ (analysisFixOf be ce).owned) : b ∈ (analysisFixOf be ce).owned := by
  rw [← analysisFixOf_fixed be ce]
  refine Finset.mem_union_right _ (Finset.mem_image.mpr ⟨(a, b), ?_, rfl⟩)
  exact Finset.mem_filter.mpr ⟨h1, h2⟩

/-- Completeness: every derivable fact holds in the computed fixpoint. -/
lemma derives_holds {be : Finset (Perm × Perm)} {ce : Finset (Perm × Perm × Perm)}
    {f : Fact} (h : Derives be ce f) : Holds (analysisFixOf be ce) f := by
  induction h with
  | base_edge hab => exact fix_base_subset hab
  | cond_edge hc _ ih => exact fix_closed_cond hc ih
  | seed_borrow => exact fix_seed_borrow
  | seed_borrow_own => exact fix_seed_borrow_own
  | seed_owned => exact fix_seed_owned
  | prop_borrow _ _ ih1 ih2 => exact fix_closed_borrow ih1 ih2
  | prop_owned _ _ ih1 ih2 => exact fix_closed_owned ih1 ih2

lemma mem_fix_less_iff (be : Finset (Perm × Perm)) (ce : Finset (Perm × Perm × Perm))
    (a b : Perm) :
    (a, b) ∈ (analysisFixOf be ce).less ↔ Derives be ce (.less a b) :=
  ⟨fun h => (analysisFixOf_sound be ce).1 a b h, fun h => derives_holds h⟩

lemma mem_fix_borrow_iff (be : Finset (Perm × Perm)) (ce : Finset (Perm × Perm × Perm))
    (p : Perm) :
    p ∈ (analysisFixOf be ce).borrow ↔ Derives be ce (.isBorrow p) :=
  ⟨fun h => (analysisFixOf_sound be ce).2.1 p h, fun h => derives_holds h⟩

lemma mem_fix_owned_iff (be : Finset (Perm × Perm)) (ce : Finset (Perm × Perm × Perm))
    (p : Perm) :
    p ∈ (analysisFixOf be ce).owned ↔ Derives be ce (.isOwned p) :=
  ⟨fun h => (analysisFixOf_sound be ce).2.2 p h, fun h => derives_holds h⟩

/-! ### Evaluating the classification map -/

lemma extendConst_eval (k0 : PermKind) (vs : Multiset PermVar)
    (m : PermVar → Option PermKind) (w : PermVar) :
    extendConst k0 vs m w = if w ∈ vs then some k0 else m w := by
  induction vs using Multiset.induction_on with
  | empty => simp [extendConst]
  | cons a s ih =>
    have hrec : Multiset.foldr (updOp k0) m s w = if w ∈ s then some k0 else m w := ih
    rw [extendConst, Multiset.foldr_cons]
    by_cases h : w = a
    · simp [updOp, h, Multiset.mem_cons]
    · simp only [updOp, if_neg h, Multiset.mem_cons, hrec]
      simp [h]

lemma mem_inferredVars (s : Finset Perm) (v : PermVar) :
    v ∈ inferredVars s ↔ PermData.Inferred v ∈ s := by
  unfold inferredVars
  rw [Multiset.mem_filterMap]
  constructor
  · rintro ⟨p, hp, hmatch⟩
    cases p with
    | Known k => simp at hmatch
    | Inferred w =>
      simp only [Option.some.injEq] at hmatch
      subst hmatch
      exact hp
    | Placeholder q => simp at hmatch
  · intro hv
    exact ⟨.Inferred v, hv, rfl⟩

/-- The classification map of a state, as the code's two overwriting
`extend` passes produce it: `Own` if the perm is in `owned`, else
`Borrow` if in `borrow`, else absent. -/
lemma classifyState_eval (s : AnalysisState) (v : PermVar) :
    classifyState s v =
      if PermData.Inferred v ∈ s.owned then some .Own
      else if PermData.Inferred v ∈ s.borrow then some .Borrow
      else none := by
  unfold classifyState
  rw [extendConst_eval, extendConst_eval]
  simp [mem_inferredVars]

lemma inferenceMap_eval (pl : List (Perm × Perm × Node))
    (pc : List (Perm × Perm × Perm × Node)) (v : PermVar) :
    inferenceMap pl pc v =
      if PermData.Inferred v ∈ (analysisFix pl pc).owned then some .Own
      else if PermData.Inferred v ∈ (analysisFix pl pc).borrow then some .Borrow
      else none :=
  classifyState_eval (analysisFix pl pc) v

/-! ### Claim theorems for the kind-inference engine -/

/-- C1: the fixpoint computed by `inference` is exactly the least
fixpoint of the specified rules: `perm_less` is seeded from the
unconditional facts of `perm_less_base`, `borrow` with the constants
`Borrow` and `Own`, `owned` with `Own`, and the loop closes the three
relations under conditional-edge activation and borrow/owned
propagation — membership in the computed relations coincides with
derivability in the inductively (i.e. least) defined rule system. -/
theorem inference_least_fixpoint (pl : List (Perm × Perm × Node))
    (pc : List (Perm × Perm × Perm × Node)) :
    (∀ a b : Perm, (a, b) ∈ (analysisFix pl pc).less ↔
      Derives (baseEdges pl) (condEdges pc) (.less a b)) ∧
    (∀ p : Perm, p ∈ (analysisFix pl pc).borrow ↔
      Derives (baseEdges pl) (condEdges pc) (.isBorrow p)) ∧
    (∀ p : Perm, p ∈ (analysisFix pl pc).owned ↔
      Derives (baseEdges pl) (condEdges pc) (.isOwned p)) :=
  ⟨fun a b => mem_fix_less_iff (baseEdges pl) (condEdges pc) a b,
   fun p => mem_fix_borrow_iff (baseEdges pl) (condEdges pc) p,
   fun p => mem_fix_owned_iff (baseEdges pl) (condEdges pc) p⟩

/-- C2: the classification map returned by `inference` maps a variable
to `Own` exactly when its Perm is in the `owned` fixpoint set (`Own`
wins when the Perm is in both sets), to `Borrow` exactly when its Perm
is in `borrow` but not `owned`, omits it exactly when it is in neither
(the implicit `Share` default), and never emits `Share`; only `Inferred`
perms ever produce entries (the map is keyed by permission variables and
`Known`/`Placeholder` perms are filtered out before insertion). -/
theorem inference_classification (pl : List (Perm × Perm × Node))
    (pc : List (Perm × Perm × Perm × Node)) (v : PermVar) :
    (inferenceMap pl pc v = some .Own ↔
      PermData.Inferred v ∈ (analysisFix pl pc).owned) ∧
    (inferenceMap pl pc v = some .Borrow ↔
      (PermData.Inferred v ∈ (analysisFix pl pc).borrow ∧
        PermData.Inferred v ∉ (analysisFix pl pc).owned)) ∧
    (inferenceMap pl pc v = none ↔
      (PermData.Inferred v ∉ (analysisFix pl pc).borrow ∧
        PermData.Inferred v ∉ (analysisFix pl pc).owned)) ∧
    inferenceMap pl pc v ≠ some .Share := by
  rw [inferenceMap_eval]
  by_cases h1 : PermData.Inferred v ∈ (analysisFix pl pc).owned <;>
    by_cases h2 : PermData.Inferred v ∈ (analysisFix pl pc).borrow <;>
    simp [h1, h2]

/-- C4: classification is monotone along derived `perm_less` edges: if
`Pa ≤ Pb` is in the derived relation and `Pa` classifies as `Own`, so
does `Pb`; if `Pa` classifies as at least `Borrow` (i.e. `Own` or
`Borrow`), so does `Pb`. -/
theorem inference_monotone (pl : List (Perm × Perm × Node))
    (pc : List (Perm × Perm × Perm × Node)) (pa pb : Perm) (va vb : PermVar)
    (hedge : (pa, pb) ∈ (analysisFix pl pc).less)
    (ha : pa = PermData.Inferred va) (hb : pb = PermData.Inferred vb) :
    (inferenceMap pl pc va = some .Own → inferenceMap pl pc vb = some .Own) ∧
    ((inferenceMap pl pc va = some .Own ∨ inferenceMap pl pc va = some .Borrow) →
      (inferenceMap pl pc vb = some .Own ∨ inferenceMap pl pc vb = some .Borrow)) := by
  subst ha hb
  have hedge2 : (PermData.Inferred va, PermData.Inferred vb) ∈
      (analysisFixOf (baseEdges pl) (condEdges pc)).less := hedge
  have hmap : ∀ w : PermVar, inferenceMap pl pc w =
      if PermData.Inferred w ∈ (analysisFixOf (baseEdges pl) (condEdges pc)).owned
        then some PermKind.Own
      else if PermData.Inferred w ∈ (analysisFixOf (baseEdges pl) (condEdges pc)).borrow
        then some PermKind.Borrow
      else none :=
    fun w => classifyState_eval (analysisFixOf (baseEdges pl) (condEdges pc)) w
  constructor
  · intro h
    rw [hmap] at h
    rw [hmap]
    by_cases hA : PermData.Inferred va ∈ (analysisFixOf (baseEdges pl) (condEdges pc)).owned
    · simp [fix_closed_owned hedge2 hA]
    · by_cases hB : PermData.Inferred va ∈
          (analysisFixOf (baseEdges pl) (condEdges pc)).borrow <;>
        simp [hA, hB] at h
  · intro h
    rw [hmap] at h
    rw [hmap]
    by_cases hA : PermData.Inferred va ∈ (analysisFixOf (baseEdges pl) (condEdges pc)).owned
    · simp [fix_closed_owned hedge2 hA]
    · by_cases hB : PermData.Inferred va ∈
          (analysisFixOf (baseEdges pl) (condEdges pc)).borrow
      · have hbb := fix_closed_borrow hedge2 hB
        by_cases hba : PermData.Inferred vb ∈
            (analysisFixOf (baseEdges pl) (condEdges pc)).owned <;>
          simp [hbb, hba]
      · simp [hA, hB] at h

set_option maxHeartbeats 2000000 in
/-- Witness for C4 at a concrete input: with base facts
`Own ≤ P0, P0 ≤ P1` the edge `(P0, P1)` is derived, `P0` classifies
`Own`, and the theorem forces `P1` to classify `Own` as well. -/
theorem inference_monotone_witness :
    ((PermData.Inferred 0, PermData.Inferred 1) ∈
      (analysisFix [(PermData.Known .Own, PermData.Inferred 0, 0),
        (PermData.Inferred 0, PermData.Inferred 1, 0)] []).less) ∧
    inferenceMap [(PermData.Known .Own, PermData.Inferred 0, 0),
      (PermData.Inferred 0, PermData.Inferred 1, 0)] [] 1 = some .Own :=
  ⟨by decide,
   (inference_monotone [(PermData.Known .Own, PermData.Inferred 0, 0),
      (PermData.Inferred 0, PermData.Inferred 1, 0)] []
      (PermData.Inferred 0) (PermData.Inferred 1) 0 1
      (by decide) rfl rfl).1 (by decide)⟩

/-- C5: the fixpoint engine is deterministic and idempotent: any run of
the iteration that performs at least the sufficient number of rounds —
in particular a run that re-runs the whole fixpoint on the already
converged state — produces the identical classification map of
`inference`. -/
theorem inference_deterministic (pl : List (Perm × Perm × Node))
    (pc : List (Perm × Perm × Perm × Node)) (n : Nat) :
    classifyState ((step (condEdges pc))^[fuelOf (baseEdges pl) (condEdges pc) + n]
      (initState (baseEdges pl))) = inferenceMap pl pc := by
  rw [Nat.add_comm, Function.iterate_add_apply]
  have h1 : (step (condEdges pc))^[fuelOf (baseEdges pl) (condEdges pc)]
      (initState (baseEdges pl)) = analysisFixOf (baseEdges pl) (condEdges pc) := rfl
  rw [h1, step_iterate_fixed (analysisFixOf_fixed (baseEdges pl) (condEdges pc)) n]
  rfl

/-- C6: the loop terminates: the three relations only ever grow from
round to round, and after `fuelOf` rounds a state is reached that a
further round leaves unchanged. -/
theorem inference_terminates (pl : List (Perm × Perm × Node))
    (pc : List (Perm × Perm × Perm × Node)) :
    (∀ n : Nat, stateLE ((step (condEdges pc))^[n] (initState (baseEdges pl)))
      ((step (condEdges pc))^[n + 1] (initState (baseEdges pl)))) ∧
    step (condEdges pc) (analysisFix pl pc) = analysisFix pl pc :=
  ⟨fun n => by
     rw [Function.iterate_succ_apply']
     exact step_infl (condEdges pc) _,
   analysisFixOf_fixed (baseEdges pl) (condEdges pc)⟩

set_option maxHeartbeats 2000000 in
/-- C7 (Scenario A): with base facts `P1 ≤ P2, P2 ≤ P3`, `P1` the known
constant `Own` and `P2, P3` inferred variables, both `P2` and `P3`
classify `Own`. -/
theorem scenario_a :
    inferenceMap [(PermData.Known .Own, PermData.Inferred 0, 0),
      (PermData.Inferred 0, PermData.Inferred 1, 0)] [] 0 = some .Own ∧
    inferenceMap [(PermData.Known .Own, PermData.Inferred 0, 0),
      (PermData.Inferred 0, PermData.Inferred 1, 0)] [] 1 = some .Own := by
  constructor <;> decide

set_option maxHeartbeats 4000000 in
/-- C8 (Scenario B): with a single conditional fact `(Pc, Pa, Pb)` and
no base facts, where `Pc` is an inferred variable never derived to be at
least borrow, the edge `Pa ≤ Pb` is never activated and none of
`Pc, Pa, Pb` is classified (all default to `Share`). -/
theorem scenario_b :
    (PermData.Inferred 1, PermData.Inferred 2) ∉
      (analysisFix [] [(PermData.Inferred 0, PermData.Inferred 1,
        PermData.Inferred 2, 0)]).less ∧
    PermData.Inferred 0 ∉
      (analysisFix [] [(PermData.Inferred 0, PermData.Inferred 1,
        PermData.Inferred 2, 0)]).borrow ∧
    inferenceMap [] [(PermData.Inferred 0, PermData.Inferred 1,
      PermData.Inferred 2, 0)] 0 = none ∧
    inferenceMap [] [(PermData.Inferred 0, PermData.Inferred 1,
      PermData.Inferred 2, 0)] 1 = none ∧
    inferenceMap [] [(PermData.Inferred 0, PermData.Inferred 1,
      PermData.Inferred 2, 0)] 2 = none := by
  refine ⟨?_, ?_, ?_, ?_, ?_⟩ <;> decide

/-- C10: the classification map does not depend on the `Node` components
of the input facts: inputs that agree on the Perm components of their
facts yield identical maps. -/
theorem inference_node_independent (pl1 pl2 : List (Perm × Perm × Node))
    (pc1 pc2 : List (Perm × Perm × Perm × Node))
    (hb : pl1.map (fun t => (t.1, t.2.1)) = pl2.map (fun t => (t.1, t.2.1)))
    (hc : pc1.map (fun t => (t.1, t.2.1, t.2.2.1)) =
      pc2.map (fun t => (t.1, t.2.1, t.2.2.1))) :
    inferenceMap pl1 pc1 = inferenceMap pl2 pc2 := by
  have h1 : baseEdges pl1 = baseEdges pl2 := by
    unfold baseEdges
    rw [hb]
  have h2 : condEdges pc1 = condEdges pc2 := by
    unfold condEdges
    rw [hc]
  unfold inferenceMap analysisFix
  rw [h1, h2]

/-- Witness for C10 at a concrete input: two fact lists differing only
in their `Node` components yield identical classification maps. -/
theorem inference_node_independent_witness :
    inferenceMap [(PermData.Known .Own, PermData.Inferred 0, 3)] [] =
      inferenceMap [(PermData.Known .Own, PermData.Inferred 0, 7)] [] :=
  inference_node_independent
    [(PermData.Known .Own, PermData.Inferred 0, 3)]
    [(PermData.Known .Own, PermData.Inferred 0, 7)] [] []
    (by decide) (by decide)

/-! ### `TypeCheckResults` of `components/type-check/src/lib.rs` -/

/-- `hir::MetaIndex`: index of an HIR element. -/
abbrev MetaIndex := Nat

/-- `hir::Identifier`: index of an identifier occurrence. -/
abbrev Identifier := Nat

/-- `lark_entity::Entity`: stable interned identifier of a declared item. -/
abbrev Entity := Nat

/-- `BTreeMap::insert`: bind `n` to `t`, replacing the value of an
existing binding of `n` and keeping all other bindings. -/
def btreeInsert {K T : Type} [DecidableEq K] :
    List (K × T) → K → T → List (K × T)
  | [], n, t => [(n, t)]
  | (m, u) :: rest, n, t =>
      if n = m then (n, t) :: rest else (m, u) :: btreeInsert rest n t

/-- `BTreeMap` lookup; `none` models the panic of indexing a missing key. -/
def btreeLookup {K T : Type} [DecidableEq K] : List (K × T) → K → Option T
  | [], _ => none
  | (m, u) :: rest, n => if n = m then some u else btreeLookup rest n

/-- `TypeCheckResults` (lib.rs lines 200–216): the per-session result
store.  `T` stands for `Ty<F>`; the `BTreeMap`s are modelled as
key-value lists with replace-on-insert. -/
structure TypeCheckResults (T : Type) where
  types : List (MetaIndex × T)
  entities : List (Identifier × Entity)
  errors : List MetaIndex

/-- `TypeCheckResults::default()` (lines 245–253). -/
def TypeCheckResults.empty (T : Type) : TypeCheckResults T := ⟨[], [], []⟩

/-- `TypeCheckResults::record_ty` (lines 227–229):
`self.types.insert(index.into(), ty)`. -/
def TypeCheckResults.record_ty {T : Type} (r : TypeCheckResults T)
    (n : MetaIndex) (t : T) : TypeCheckResults T :=
  { r with types := btreeInsert r.types n t }

/-- `TypeCheckResults::record_entity` (lines 221–223). -/
def TypeCheckResults.record_entity {T : Type} (r : TypeCheckResults T)
    (i : Identifier) (e : Entity) : TypeCheckResults T :=
  { r with entities := btreeInsert r.entities i e }

/-- `TypeCheckResults::record_error` (lines 232–236). -/
def TypeCheckResults.record_error {T : Type} (r : TypeCheckResults T)
    (l : MetaIndex) : TypeCheckResults T :=
  { r with errors := r.errors ++ [l] }

/-- `TypeCheckResults::ty` (lines 240–242): `self.types[&index.into()]`;
the `none` result models the panic on a node that was never recorded. -/
def TypeCheckResults.ty {T : Type} (r : TypeCheckResults T) (n : MetaIndex) :
    Option T :=
  btreeLookup r.types n

/-- A sequence of `record_ty` calls applied in order. -/
def applyRecords {T : Type} (r : TypeCheckResults T)
    (ops : List (MetaIndex × T)) : TypeCheckResults T :=
  ops.foldl (fun acc p => acc.record_ty p.1 p.2) r

lemma btreeLookup_insert_self {K T : Type} [DecidableEq K]
    (l : List (K × T)) (n : K) (t : T) :
    btreeLookup (btreeInsert l n t) n = some t := by
  induction l with
  | nil => simp [btreeInsert, btreeLookup]
  | cons hd tl ih =>
    obtain ⟨m, u⟩ := hd
    by_cases h : n = m
    · subst h
      simp [btreeInsert, btreeLookup]
    · simp [btreeInsert, btreeLookup, h, ih]

lemma btreeLookup_insert_ne {K T : Type} [DecidableEq K]
    (l : List (K × T)) (n : K) (t : T) (w : K) (h : w ≠ n) :
    btreeLookup (btreeInsert l n t) w = btreeLookup l w := by
  induction l with
  | nil => simp [btreeInsert, btreeLookup, h]
  | cons hd tl ih =>
    obtain ⟨m, u⟩ := hd
    by_cases h2 : n = m
    · subst h2
      simp [btreeInsert, btreeLookup, h]
    · by_cases h3 : w = m <;> simp [btreeInsert, btreeLookup, h2, h3, ih]

lemma btreeLookup_none_iff {K T : Type} [DecidableEq K]
    (l : List (K × T)) (n : K) :
    btreeLookup l n = none ↔ n ∉ l.map Prod.fst := by
  induction l with
  | nil => simp [btreeLookup]
  | cons hd tl ih =>
    obtain ⟨m, u⟩ := hd
    by_cases h : n = m <;> simp [btreeLookup, h, ih]

lemma applyRecords_ty_none_iff {T : Type} (ops : List (MetaIndex × T))
    (r : TypeCheckResults T) (n : MetaIndex) :
    (applyRecords r ops).ty n = none ↔ (n ∉ ops.map Prod.fst ∧ r.ty n = none) := by
  induction ops generalizing r with
  | nil => simp [applyRecords]
  | cons hd tl ih =>
    obtain ⟨k, t⟩ := hd
    have hstep : applyRecords r ((k, t) :: tl) = applyRecords (r.record_ty k t) tl := rfl
    rw [hstep, ih]
    have hrec : (r.record_ty k t).ty n = none ↔ (n ≠ k ∧ r.ty n = none) := by
      by_cases h : n = k
      · subst h
        simp [TypeCheckResults.ty, TypeCheckResults.record_ty, btreeLookup_insert_self]
      · simp [TypeCheckResults.ty, TypeCheckResults.record_ty,
          btreeLookup_insert_ne _ _ _ _ h, h]
    rw [hrec]
    simp only [List.map_cons, List.mem_cons]
    constructor
    · rintro ⟨h1, h2, h3⟩
      exact ⟨by tauto, h3⟩
    · rintro ⟨h1, h3⟩
      exact ⟨fun hmem => h1 (Or.inr hmem), fun heq => h1 (Or.inl heq), h3⟩

/-! ### Claim theorems for `TypeCheckResults` -/

/-- C3 counterexample: recording node `0` with type `1` and then
recording node `0` again with type `2` silently replaces the first
recording — the lookup yields `2` and no longer `1`, so a previously
recorded type IS lost, refuting the claim that a recorded type is never
lost or silently replaced. -/
theorem record_ty_overwrites :
    ((TypeCheckResults.empty Nat).record_ty 0 1 |>.record_ty 0 2).ty 0 = some 2 ∧
    ((TypeCheckResults.empty Nat).record_ty 0 1 |>.record_ty 0 2).ty 0 ≠ some 1 := by
  constructor <;> decide

/-- C3 (amended): `record_ty` is last-write-wins: recording the same
node again replaces the earlier type with the new one (the map always
retains a binding for the node), and recording one node never disturbs
the type recorded for any other node. -/
theorem record_ty_last_write_wins {T : Type} (r : TypeCheckResults T)
    (n m : MetaIndex) (t1 t2 : T) :
    ((r.record_ty n t1).record_ty n t2).ty n = some t2 ∧
    (m ≠ n → (r.record_ty n t1).ty m = r.ty m) :=
  ⟨btreeLookup_insert_self _ n t2,
   fun h => btreeLookup_insert_ne r.types n t1 m h⟩

/-- Witness for the amended C3 at concrete inputs. -/
theorem record_ty_last_write_wins_witness :
    ((TypeCheckResults.empty Nat).record_ty 0 5 |>.record_ty 0 6).ty 0 = some 6 ∧
    ((TypeCheckResults.empty Nat).record_ty 0 5).ty 1 = none :=
  ⟨(record_ty_last_write_wins (TypeCheckResults.empty Nat) 0 1 5 6).1,
   by
     rw [(record_ty_last_write_wins (TypeCheckResults.empty Nat) 0 1 5 6).2
       (by decide)]
     decide⟩

/-- C9: `ty` returns the recorded type of a previously recorded node —
the type recorded for `n` is returned right after recording and survives
recordings of other nodes — and for a node never recorded in the session
the lookup fails (the modelled panic, `none`): over any session trace of
`record_ty` calls starting from the empty results, `ty n` is `none`
exactly when `n` is never recorded. -/
theorem ty_recorded_spec {T : Type} (ops : List (MetaIndex × T))
    (n m : MetaIndex) (r : TypeCheckResults T) (t u : T) :
    ((applyRecords (TypeCheckResults.empty T) ops).ty n = none ↔
      n ∉ ops.map Prod.fst) ∧
    (r.record_ty n t).ty n = some t ∧
    (m ≠ n → ((r.record_ty n t).record_ty m u).ty n = (r.record_ty n t).ty n) := by
  refine ⟨?_, btreeLookup_insert_self _ n t, ?_⟩
  · rw [applyRecords_ty_none_iff]
    simp [TypeCheckResults.ty, TypeCheckResults.empty, btreeLookup]
  · intro h
    exact btreeLookup_insert_ne _ m u n (fun hh => h hh.symm)

/-- Witness for C9 at concrete inputs. -/
theorem ty_recorded_spec_witness :
    ((applyRecords (TypeCheckResults.empty Nat) [(0, 5)]).ty 1 = none) ∧
    ((TypeCheckResults.empty Nat).record_ty 0 5).ty 0 = some 5 ∧
    (((TypeCheckResults.empty Nat).record_ty 0 5).record_ty 2 7).ty 0 = some 5 :=
  ⟨(ty_recorded_spec [(0, 5)] 1 2 (TypeCheckResults.empty Nat) 5 5).1.mpr (by decide),
   (ty_recorded_spec [(0, 5)] 0 2 (TypeCheckResults.empty Nat) 5 5).2.1,
   by
     rw [(ty_recorded_spec [(0, 5)] 0 2 (TypeCheckResults.empty Nat) 5 7).2.2
       (by decide)]
     decide⟩

end Lark
